import Mathlib

/-!
Verification of the hardpoint test feature-extraction pipeline
(`lsst.sitcom.tn082`): state segmentation, stiffness fitting, breakaway
detection, band classification and time-range chunking, shallowly embedded
over exact rationals.
-/

namespace TN082

/-- Displacement gap threshold (µm) used by the breakaway detector
(`BREAKAWAY_DISP_UM = 1.0` in `features.py`). -/
def BREAKAWAY_DISP_UM : ℚ := 1

/-- Number of consecutive above-threshold samples needed to confirm breakaway
(`BREAKAWAY_MIN_CONSEC = 3` in `features.py`). -/
def BREAKAWAY_MIN_CONSEC : ℕ := 3

/-- Lower clamp boundary for small negative stiffness values
(`STIFFNESS_NEG_CLAMP_EPS = -0.5` in `features.py`). -/
def STIFFNESS_NEG_CLAMP_EPS : ℚ := -(1/2)

/-- Upper bound for acceptable stiffness (`STIFFNESS_MAX_ABS = 100.0`). -/
def STIFFNESS_MAX_ABS : ℚ := 100

/-- Compression acceptance band limits in Newtons (`COMP_BAND_N`). -/
def COMP_BAND_N : ℚ × ℚ := (2981, 3959)

/-- Tension acceptance band limits in Newtons (`TENS_BAND_N`). -/
def TENS_BAND_N : ℚ × ℚ := (-4420, -3456)

/-- Post-fit stiffness quality filter applied once per feature row in
`extract_features_for_groups` (features.py lines 521–529).  A raw stiffness
that is not finite (NaN) is modelled as `none` and passes through unchanged;
a finite value `k` is clamped to `0` when `STIFFNESS_NEG_CLAMP_EPS ≤ k < 0`,
discarded to NaN (`none`) when `k < STIFFNESS_NEG_CLAMP_EPS` or
`k > STIFFNESS_MAX_ABS`, and kept unchanged otherwise. -/
def filter_stiffness : Option ℚ → Option ℚ
  | none => none
  | some k =>
    if STIFFNESS_NEG_CLAMP_EPS ≤ k ∧ k < 0 then some 0
    else if k < STIFFNESS_NEG_CLAMP_EPS ∨ k > STIFFNESS_MAX_ABS then none
    else some k

/-- Acceptance-band classification of a breakaway force
(`extract_features_for_groups`, features.py lines 565–575).  A missing (NaN)
breakaway force is `none`; a pandas comparison with NaN is `False`, and the
final `.fillna(False)` makes the missing case `in_band = False`. -/
def in_band : Option ℚ → Bool
  | none => false
  | some f =>
    decide ((COMP_BAND_N.1 ≤ f ∧ f ≤ COMP_BAND_N.2) ∨
            (TENS_BAND_N.1 ≤ f ∧ f ≤ TENS_BAND_N.2))

/-- Dot product of two sample vectors, as computed by `np.dot` on
equal-length 1-D arrays. -/
def dot (x y : List ℚ) : ℚ := (List.zipWith (· * ·) x y).sum

/-- Function `slope_through_origin` (features.py lines 252–268): least-squares slope of
the line through the origin, `k = dot(x,y) / dot(x,x)`; NaN (`none`) when the
denominator is zero.  Over exact rationals a dot product is always finite, so
the source's `np.isfinite(denom)` guard reduces to the zero test. -/
def slope_through_origin (x y : List ℚ) : Option ℚ :=
  let denom := dot x x
  if denom = 0 then none else some (dot x y / denom)

/-- Index (in time order) of the first sample whose force has minimal absolute
value, as returned by `df["force"].abs().idxmin()` in pandas (first row label
attaining the minimum; the curve list is already in index order). -/
def firstMinAbsIdx (l : List ℚ) : ℕ :=
  l.findIdx (fun a => decide (∀ b ∈ l, |a| ≤ |b|))

/-- Function `center_to_origin` (features.py lines 271–293).  A curve is a list of
(force N, displacement µm) samples in UTC-index order (the source first sorts
by its index, which our list order represents).  The sample of minimum
absolute force becomes the new origin: its force `y0` and displacement `x0`
are subtracted from every sample. -/
def center_to_origin (df : List (ℚ × ℚ)) : List (ℚ × ℚ) :=
  if df.isEmpty then df
  else
    let i0 := firstMinAbsIdx (df.map Prod.fst)
    let y0 := (df.getD i0 (0, 0)).1
    let x0 := (df.getD i0 (0, 0)).2
    df.map (fun p => (p.1 - y0, p.2 - x0))

/-- Flag vector computed inside `find_breakaway_index` (features.py lines
352–353): `displacement_um.diff().abs() > BREAKAWAY_DISP_UM`.  In pandas the
first element of `diff()` is NaN and `NaN > 1.0` is `False`, so position 0 is
never flagged; position `i ≥ 1` is flagged iff `|xs[i] - xs[i-1]| > 1`. -/
def flagDiffs (xs : List ℚ) : List Bool :=
  match xs with
  | [] => []
  | _ :: tail =>
    false :: List.zipWith (fun a b => decide (|b - a| > BREAKAWAY_DISP_UM)) xs tail

/-- The scanning loop of `find_breakaway_index` (features.py lines 357–369):
`i` is the current position, `count` the length of the current run of flagged
positions and `first` the position of the first sample of the current run;
`count` resets (and `first` clears) at every unflagged position, and the run
start `first` is returned as soon as `count` reaches `BREAKAWAY_MIN_CONSEC`. -/
def baScan : ℕ → ℕ → Option ℕ → List Bool → Option ℕ
  | _, _, _, [] => none
  | i, count, first, ok :: rest =>
    if ok then
      let f := first.getD i
      if BREAKAWAY_MIN_CONSEC ≤ count + 1 then some f
      else baScan (i + 1) (count + 1) (some f) rest
    else baScan (i + 1) 0 none rest

/-- Function `find_breakaway_index` (features.py lines 336–369): index of the first
sample of the first run of at least `BREAKAWAY_MIN_CONSEC` consecutive
flagged positions of `flagDiffs`, or `none`.  The source's early `None`
returns for an empty series and for an all-unflagged series are kept. -/
def find_breakaway_index (xs : List ℚ) : Option ℕ :=
  if xs.isEmpty then none
  else if (flagDiffs xs).any id = false then none
  else baScan 0 0 none (flagDiffs xs)

/-- Model of Python's `max(cands, key=lambda ab: ab[1] - ab[0])` over a non-empty
candidate list: returns the first element attaining the maximal duration,
replacing the running maximum only on a strict increase. -/
def maxByDurFirst (c : ℚ × ℚ) (cs : List (ℚ × ℚ)) : ℚ × ℚ :=
  cs.foldl (fun acc d => if d.2 - d.1 > acc.2 - acc.1 then d else acc) c

/-- Function `pick_longest_segment` (features.py lines 205–222): keeps the segments
`(a, b, st)` with `st == target_state` and `b > a`, and returns the pair
`(a, b)` of maximal duration `b - a`, or `none` when no candidate exists. -/
def pick_longest_segment (segs : List (ℚ × ℚ × ℤ)) (target_state : ℤ) :
    Option (ℚ × ℚ) :=
  let cands := (segs.filter
      (fun s => decide (s.2.2 = target_state ∧ s.1 < s.2.1))).map
    (fun s => (s.1, s.2.1))
  match cands with
  | [] => none
  | c :: cs => some (maxByDurFirst c cs)

/-- Position `j` starts a run of three consecutive flagged positions in the
flag vector `l` (out-of-range positions read as unflagged). -/
def tripleAt (l : List Bool) (j : ℕ) : Bool :=
  l.getD j false && l.getD (j + 1) false && l.getD (j + 2) false

/-- Declarative reading of the breakaway rule, for comparison with the
scanning loop: the least position starting three consecutive flagged
positions, i.e. the first sample of the first run that reaches
`BREAKAWAY_MIN_CONSEC = 3` consecutive flagged samples. -/
def firstTriple : List Bool → Option ℕ
  | true :: true :: true :: _ => some 0
  | _ :: rest => (firstTriple rest).map (· + 1)
  | [] => none

/-- Restriction of a state series to the query window `[t0, t1]`
(features.py line 184).  A series sample is a `(UTC time, state)` pair; the
list stands for the series after `dropna()` and `ensure_utc_index` (so with
missing values removed and a sorted index). -/
def restrictWindow (s : List (ℚ × ℤ)) (t0 t1 : ℚ) : List (ℚ × ℤ) :=
  s.filter (fun p => decide (t0 ≤ p.1 ∧ p.1 ≤ t1))

/-- Boundary extension of `build_state_segments` (features.py lines 188–193).
When the restricted series does not start at `t0`, `s.loc[t0] = s.iloc[0]`
inserts a sample holding the first state; pandas setting-with-enlargement
appends that row at the positional end, so the source's second check then
reads `s.index[-1] = t0` and `s.iloc[-1] =` the FIRST state.  Since
`t0 < t1` in that case, the second branch always fires and
`s.loc[t1] = s.iloc[-1]` writes the first state at `t1` — overwriting the
sample labelled `t1` if one exists (under the sorted-index invariant that is
the last sample) or appending one.  When the `t0` insertion does not fire,
the second branch reads the true last sample and appends its (last) state at
`t1` only when the series ends before `t1`.  The trailing `sort_index()`
puts the `t0` row first and the `t1` row last. -/
def extendEdges (s : List (ℚ × ℤ)) (t0 t1 : ℚ) : List (ℚ × ℤ) :=
  match s with
  | [] => []
  | (t, v) :: rest =>
    if t0 < t then
      (t0, v) ::
        (if (((t, v) :: rest).getLastD (t0, v)).1 = t1 then
          ((t, v) :: rest).dropLast ++ [(t1, v)]
        else ((t, v) :: rest) ++ [(t1, v)])
    else
      if (((t, v) :: rest).getLastD (t0, v)).1 < t1 then
        ((t, v) :: rest) ++ [(t1, (((t, v) :: rest).getLastD (t0, v)).2)]
      else (t, v) :: rest

/-- Change-point positions of `build_state_segments` (features.py lines
195–196): position 0 (pandas `ne` against the NaN of `shift()` is `True`)
and every position whose state differs from its predecessor. -/
def changeIdx (s : List (ℚ × ℤ)) : List ℕ :=
  (List.range s.length).filter
    (fun i => decide (i = 0 ∨ (s.getD i (0, 0)).2 ≠ (s.getD (i - 1) (0, 0)).2))

/-- The segment-emission loop of `build_state_segments` (features.py lines
197–201): one `(start, end, state)` tuple per change point, the end being the
next change point's time, the final segment's end pinned to `t1`. -/
def segsOf (se : List (ℚ × ℤ)) (t1 : ℚ) : List (ℚ × ℚ × ℤ) :=
  let idx := changeIdx se
  (List.range idx.length).map (fun k =>
    ((se.getD (idx.getD k 0) (0, 0)).1,
     if k + 1 < idx.length then (se.getD (idx.getD (k + 1) 0) (0, 0)).1 else t1,
     (se.getD (idx.getD k 0) (0, 0)).2))

/-- Function `build_state_segments` (features.py lines 159–202): restrict the state
series to `[t0, t1]`, extend the edges, and emit the change-point segments;
an empty or fully filtered-out series yields no segments. -/
def build_state_segments (series : List (ℚ × ℤ)) (t0 t1 : ℚ) :
    List (ℚ × ℚ × ℤ) :=
  match restrictWindow series t0 t1 with
  | [] => []
  | p :: rest => segsOf (extendEdges (p :: rest) t0 t1) t1

/-- The chunking loop of `chunk_ranges_utc` (utils.py lines 75–81), after the
overlap adjustment; times are rational hours since an arbitrary epoch.  Each
iteration yields `(chunk_start, chunk_end)` with
`chunk_end = min (chunk_start + delta) endT`, stops as soon as `chunk_end`
reaches `endT`, and otherwise continues from `chunk_end - overlap`.  The
hypotheses `0 ≤ overlap < delta` (established by the caller's overlap
adjustment) guarantee forward progress, which proves termination. -/
def chunkLoop (delta overlap endT : ℚ) (hov : 0 ≤ overlap)
    (hlt : overlap < delta) (cs : ℚ) : List (ℚ × ℚ) :=
  if h : cs < endT then
    if h2 : endT ≤ min (cs + delta) endT then [(cs, min (cs + delta) endT)]
    else (cs, min (cs + delta) endT) ::
      chunkLoop delta overlap endT hov hlt (min (cs + delta) endT - overlap)
  else []
termination_by Nat.floor ((endT - cs) / (delta - overlap))
decreasing_by
  have hmlt : min (cs + delta) endT < endT := not_le.mp h2
  have hce : min (cs + delta) endT = cs + delta := by
    rcases min_cases (cs + delta) endT with ⟨he, _⟩ | ⟨he, _⟩
    · exact he
    · rw [he] at hmlt
      exact absurd hmlt (lt_irrefl _)
  rw [hce]
  have hs : 0 < delta - overlap := by linarith
  rw [hce] at hmlt
  have heq : endT - (cs + delta - overlap) = (endT - cs) - (delta - overlap) := by
    ring
  rw [heq, sub_div, div_self (ne_of_gt hs)]
  have hy1 : (1 : ℚ) ≤ (endT - cs) / (delta - overlap) := by
    rw [le_div_iff₀ hs]
    linarith
  rw [Nat.floor_lt (by linarith)]
  have hfl := Nat.lt_floor_add_one ((endT - cs) / (delta - overlap))
  linarith

/-- Function `chunk_ranges_utc` (utils.py lines 46–81): partitions `[start, endT]`
into chunks of `days` days with `overlap_hours` hours of overlap; if the
overlap is at least the chunk size it is forced to zero to guarantee forward
progress.  Times are in hours, so the chunk size is `24 * days`; `days > 0`
is required for the loop to make progress (the source would loop forever on
`days = 0`, which no caller uses). -/
def chunk_ranges_utc (start endT : ℚ) (days overlap_hours : ℕ)
    (hdays : 0 < days) : List (ℚ × ℚ) :=
  let delta : ℚ := 24 * days
  let overlap : ℚ := overlap_hours
  if h : delta ≤ overlap then
    chunkLoop delta 0 endT le_rfl
      (mul_pos (by norm_num) (by exact_mod_cast hdays)) start
  else
    chunkLoop delta overlap endT (Nat.cast_nonneg overlap_hours)
      (lt_of_not_ge h) start

end TN082

namespace TN082

/-- C2: the per-row post-fit quality filter sends a finite raw stiffness `k`
to `0` on `[-1/2, 0)`, to undefined (`none`) below `-1/2` or above `100`,
and leaves it unchanged otherwise; in particular `-1/5 ↦ 0`,
`-4/5 ↦ none`, `150 ↦ none`, `5 ↦ 5`. -/
theorem c2_stiffness_filter :
    (∀ k : ℚ,
      ((-(1/2) ≤ k ∧ k < 0) → filter_stiffness (some k) = some 0) ∧
      ((k < -(1/2) ∨ k > 100) → filter_stiffness (some k) = none) ∧
      ((0 ≤ k ∧ k ≤ 100) → filter_stiffness (some k) = some k)) ∧
    filter_stiffness (some (-(1/5))) = some 0 ∧
    filter_stiffness (some (-(4/5))) = none ∧
    filter_stiffness (some 150) = none ∧
    filter_stiffness (some 5) = some 5 := by
  refine ⟨fun k => ⟨?_, ?_, ?_⟩,
    by norm_num [filter_stiffness, STIFFNESS_NEG_CLAMP_EPS, STIFFNESS_MAX_ABS],
    by norm_num [filter_stiffness, STIFFNESS_NEG_CLAMP_EPS, STIFFNESS_MAX_ABS],
    by norm_num [filter_stiffness, STIFFNESS_NEG_CLAMP_EPS, STIFFNESS_MAX_ABS],
    by norm_num [filter_stiffness, STIFFNESS_NEG_CLAMP_EPS, STIFFNESS_MAX_ABS]⟩
  · intro h
    simp only [filter_stiffness, STIFFNESS_NEG_CLAMP_EPS, if_pos h]
  · intro h
    have h1 : ¬ (STIFFNESS_NEG_CLAMP_EPS ≤ k ∧ k < 0) := by
      rcases h with h | h
      · exact fun hc => absurd hc.1 (by simpa [STIFFNESS_NEG_CLAMP_EPS] using not_le.mpr h)
      · exact fun hc => absurd hc.2 (by exact not_lt.mpr (le_trans (by norm_num) h.le))
    simp only [filter_stiffness, if_neg h1]
    have h2 : k < STIFFNESS_NEG_CLAMP_EPS ∨ k > STIFFNESS_MAX_ABS := by
      simpa [STIFFNESS_NEG_CLAMP_EPS, STIFFNESS_MAX_ABS] using h
    simp [h2]
  · intro h
    have h1 : ¬ (STIFFNESS_NEG_CLAMP_EPS ≤ k ∧ k < 0) := fun hc => absurd h.1 (not_le.mpr hc.2)
    have h2 : ¬ (k < STIFFNESS_NEG_CLAMP_EPS ∨ k > STIFFNESS_MAX_ABS) := by
      push_neg
      refine ⟨le_trans (by norm_num [STIFFNESS_NEG_CLAMP_EPS]) h.1, ?_⟩
      simpa [STIFFNESS_MAX_ABS] using h.2
    simp [filter_stiffness, h1, h2]

/-- Witness for C2 at `k = 5`. -/
theorem c2_stiffness_filter_witness :
    filter_stiffness (some 5) = some 5 :=
  (c2_stiffness_filter.1 5).2.2 (by norm_num)

/-- C3 counterexample: at exactly `-1/2` N/µm the filter does NOT discard the
value: the clamp branch `[-1/2, 0)` (closed at `-1/2`) fires first. -/
theorem c3_counterexample :
    filter_stiffness (some (-(1/2))) ≠ none := by
  norm_num [filter_stiffness, STIFFNESS_NEG_CLAMP_EPS]
  exact Option.some_ne_none 0

/-- C3 (amended): when the raw stiffness value is exactly `-1/2` N/µm, the
post-fit quality filter takes the clamp branch (since the clamp interval
`[-1/2, 0)` is closed at `-1/2`), producing `0.0` rather than discarding the
value; only values strictly below `-1/2` are discarded. -/
theorem c3_amended :
    filter_stiffness (some (-(1/2))) = some 0 := by
  norm_num [filter_stiffness, STIFFNESS_NEG_CLAMP_EPS]

/-- C4: `in_band` is true iff the (numeric, non-missing) breakaway force lies
in the closed compression band `[2981, 3959]` or the closed tension band
`[-4420, -3456]`; a missing (NaN) force yields `false`.  In particular
`3500 ↦ true`, `-4000 ↦ true`, `0 ↦ false`, NaN `↦ false`. -/
theorem c4_in_band :
    (∀ f : ℚ, in_band (some f) = true ↔
      ((2981 ≤ f ∧ f ≤ 3959) ∨ (-4420 ≤ f ∧ f ≤ -3456))) ∧
    in_band none = false ∧
    in_band (some 3500) = true ∧
    in_band (some (-4000)) = true ∧
    in_band (some 0) = false := by
  refine ⟨fun f => ?_,
    by norm_num [in_band],
    by norm_num [in_band, COMP_BAND_N, TENS_BAND_N],
    by norm_num [in_band, COMP_BAND_N, TENS_BAND_N],
    by norm_num [in_band, COMP_BAND_N, TENS_BAND_N]⟩
  simp [in_band, COMP_BAND_N, TENS_BAND_N]

theorem dot_cons (a b : ℚ) (xs ys : List ℚ) :
    dot (a :: xs) (b :: ys) = a * b + dot xs ys := by
  simp [dot]

theorem dot_zipWith_add (x y₁ y₂ : List ℚ) (h : y₁.length = y₂.length) :
    dot x (List.zipWith (· + ·) y₁ y₂) = dot x y₁ + dot x y₂ := by
  induction x generalizing y₁ y₂ with
  | nil => simp [dot]
  | cons a xs ih =>
    match y₁, y₂ with
    | [], [] => simp [dot]
    | [], _ :: _ => simp at h
    | _ :: _, [] => simp at h
    | b :: ys₁, c :: ys₂ =>
      simp only [List.length_cons, Nat.add_right_cancel_iff] at h
      rw [List.zipWith_cons_cons, dot_cons, dot_cons, dot_cons, ih ys₁ ys₂ h]
      ring

theorem dot_map_mul (c : ℚ) (x y : List ℚ) :
    dot x (y.map (fun v => c * v)) = c * dot x y := by
  induction x generalizing y with
  | nil => simp [dot]
  | cons a xs ih =>
    cases y with
    | nil => simp [dot]
    | cons b ys =>
      rw [List.map_cons, dot_cons, dot_cons, ih ys]
      ring

theorem dot_self_eq_zero (x : List ℚ) (h : ∀ a ∈ x, a = 0) : dot x x = 0 := by
  induction x with
  | nil => rfl
  | cons a xs ih =>
    rw [dot_cons, h a (by simp), ih (fun b hb => h b (by simp [hb]))]
    ring

/-- C6: `slope_through_origin x y` equals `dot x y / dot x x` whenever the
denominator is nonzero (over exact rationals it is always finite), is linear
in `y` for fixed `x` (additive in `y` and commutes with scaling `y` by a
constant), and returns undefined (`none`) when `x` is a zero vector. -/
theorem c6_slope_through_origin :
    ∀ (x y₁ y₂ : List ℚ) (c : ℚ),
      (dot x x ≠ 0 → slope_through_origin x y₁ = some (dot x y₁ / dot x x)) ∧
      (dot x x ≠ 0 → y₁.length = y₂.length →
        slope_through_origin x (List.zipWith (· + ·) y₁ y₂) =
          some (dot x y₁ / dot x x + dot x y₂ / dot x x)) ∧
      (dot x x ≠ 0 →
        slope_through_origin x (y₁.map (fun v => c * v)) =
          some (c * (dot x y₁ / dot x x))) ∧
      ((∀ a ∈ x, a = 0) → slope_through_origin x y₁ = none) := by
  intro x y₁ y₂ c
  refine ⟨fun hd => ?_, fun hd hl => ?_, fun hd => ?_, fun hz => ?_⟩
  · simp [slope_through_origin, hd]
  · simp only [slope_through_origin, if_neg hd]
    rw [dot_zipWith_add x y₁ y₂ hl, add_div]
  · simp only [slope_through_origin, if_neg hd]
    rw [dot_map_mul, mul_div_assoc]
  · simp [slope_through_origin, dot_self_eq_zero x hz]

/-- Witness for C6 on concrete vectors. -/
theorem c6_slope_through_origin_witness :
    slope_through_origin [1, 2] [3, 4] = some (11 / 5) ∧
    slope_through_origin [0] [3] = none := by
  constructor
  · have h := (c6_slope_through_origin [1, 2] [3, 4] [0, 0] 1).1
      (by norm_num [dot, List.zipWith_cons_cons])
    rw [h]
    norm_num [dot, List.zipWith_cons_cons]
  · exact (c6_slope_through_origin [0] [3] [] 1).2.2.2 (by simp)

theorem exists_abs_min : ∀ l : List ℚ, l ≠ [] → ∃ a ∈ l, ∀ b ∈ l, |a| ≤ |b|
  | [], h => absurd rfl h
  | [x], _ => ⟨x, by simp⟩
  | x :: y :: ys, _ => by
    obtain ⟨a, ha, hmin⟩ := exists_abs_min (y :: ys) (by simp)
    by_cases hx : |x| ≤ |a|
    · refine ⟨x, by simp, fun b hb => ?_⟩
      rcases List.mem_cons.mp hb with rfl | hb
      · exact le_refl _
      · exact le_trans hx (hmin b hb)
    · refine ⟨a, List.mem_cons_of_mem _ ha, fun b hb => ?_⟩
      rcases List.mem_cons.mp hb with rfl | hb
      · exact le_of_lt (not_le.mp hx)
      · exact hmin b hb

theorem center_to_origin_of_ne_nil (df : List (ℚ × ℚ)) (h : df.isEmpty = false) :
    center_to_origin df =
      df.map (fun q =>
        (q.1 - (df.getD (firstMinAbsIdx (df.map Prod.fst)) (0, 0)).1,
         q.2 - (df.getD (firstMinAbsIdx (df.map Prod.fst)) (0, 0)).2)) := by
  simp only [center_to_origin, h, Bool.false_eq_true, if_false]

/-- C7: `center_to_origin` is idempotent on every non-empty force/displacement
curve: after one application the sample of minimum absolute force (as located
by the same first-minimum rule the source uses) lies exactly at `(0, 0)`, and
applying `center_to_origin` a second time subtracts a zero offset and returns
the same curve. -/
theorem c7_center_to_origin (df : List (ℚ × ℚ)) (h : df ≠ []) :
    (center_to_origin df).getD
      (firstMinAbsIdx ((center_to_origin df).map Prod.fst)) (0, 0) = (0, 0) ∧
    center_to_origin (center_to_origin df) = center_to_origin df := by
  have hne : df.isEmpty = false := by
    cases df with
    | nil => exact absurd rfl h
    | cons q l => rfl
  have hfsne : df.map Prod.fst ≠ [] := by
    cases df with
    | nil => exact absurd rfl h
    | cons q l => simp
  have hex : ∃ a ∈ df.map Prod.fst,
      (fun a => decide (∀ b ∈ df.map Prod.fst, |a| ≤ |b|)) a = true := by
    obtain ⟨a, ha, hmin⟩ := exists_abs_min (df.map Prod.fst) hfsne
    exact ⟨a, ha, by simpa using hmin⟩
  have hlt : firstMinAbsIdx (df.map Prod.fst) < (df.map Prod.fst).length :=
    List.findIdx_lt_length_of_exists hex
  have hltd : firstMinAbsIdx (df.map Prod.fst) < df.length := by
    simpa using hlt
  set i0 := firstMinAbsIdx (df.map Prod.fst) with hi0def
  have hgd : df.getD i0 (0, 0) = df[i0] := List.getD_eq_getElem df (0, 0) hltd
  have hmin0 : ∀ b ∈ df.map Prod.fst, |df[i0].1| ≤ |b| := by
    have hp := @List.findIdx_getElem _
      (fun a => decide (∀ b ∈ df.map Prod.fst, |a| ≤ |b|)) (df.map Prod.fst) hlt
    simpa [firstMinAbsIdx] using hp
  -- the centered curve and its force column
  have hcd := center_to_origin_of_ne_nil df hne
  have hcfs : (center_to_origin df).map Prod.fst =
      (df.map Prod.fst).map (fun v => v - (df.getD i0 (0, 0)).1) := by
    rw [hcd, List.map_map, List.map_map]
    rfl
  have hclen : ((center_to_origin df).map Prod.fst).length = df.length := by
    rw [hcfs]
    simp
  have hlc : i0 < ((center_to_origin df).map Prod.fst).length := by
    rw [hclen]; exact hltd
  -- force of the centered curve at i0 is zero
  have hc0 : ((center_to_origin df).map Prod.fst)[i0] = 0 := by
    simp only [hcfs, List.getElem_map]
    rw [sub_eq_zero]
    exact (congrArg Prod.fst hgd).symm
  -- the first-minimum index of the centered forces is again i0
  have hidx : firstMinAbsIdx ((center_to_origin df).map Prod.fst) = i0 := by
    rw [firstMinAbsIdx]
    rw [List.findIdx_eq hlc]
    constructor
    · rw [decide_eq_true_eq]
      intro b hb
      rw [hc0]
      simp
    · intro j hj
      rw [decide_eq_false_iff_not]
      intro hq
      have hjd : j < df.length := lt_trans hj hltd
      have h0mem : ((center_to_origin df).map Prod.fst)[i0] ∈
          (center_to_origin df).map Prod.fst := List.getElem_mem hlc
      have hle := hq _ h0mem
      rw [hc0, abs_zero] at hle
      have hz : ((center_to_origin df).map Prod.fst)[j] = 0 :=
        abs_eq_zero.mp (le_antisymm hle (abs_nonneg _))
      have hfj : df[j].1 = df[i0].1 := by
        simp only [hcfs, List.getElem_map] at hz
        exact (sub_eq_zero.mp hz).trans (congrArg Prod.fst hgd)
      have hpj2 := @List.not_of_lt_findIdx _
        (fun a => decide (∀ b ∈ df.map Prod.fst, |a| ≤ |b|)) (df.map Prod.fst) j
        (by simpa [firstMinAbsIdx] using hj)
      simp only [List.getElem_map, decide_eq_false_iff_not] at hpj2
      refine hpj2 ?_
      rw [hfj]
      exact hmin0
  -- part (a): the new minimum-|force| sample is exactly (0,0)
  have hcd_i0 : (center_to_origin df).getD i0 (0, 0) = (0, 0) := by
    have hlcd : i0 < (center_to_origin df).length := by
      rw [hcd]; simpa using hltd
    rw [List.getD_eq_getElem _ _ hlcd]
    have hgm : (center_to_origin df)[i0] =
        (df[i0].1 - (df.getD i0 (0, 0)).1, df[i0].2 - (df.getD i0 (0, 0)).2) := by
      simp only [hcd, List.getElem_map]
    have h1 : df[i0].1 - (df.getD i0 (0, 0)).1 = 0 := by
      rw [sub_eq_zero]
      exact (congrArg Prod.fst hgd).symm
    have h2 : df[i0].2 - (df.getD i0 (0, 0)).2 = 0 := by
      rw [sub_eq_zero]
      exact (congrArg Prod.snd hgd).symm
    rw [hgm, h1, h2]
  refine ⟨by rw [hidx]; exact hcd_i0, ?_⟩
  -- part (b): idempotence
  have hcne : (center_to_origin df).isEmpty = false := by
    rw [hcd]
    cases df with
    | nil => exact absurd rfl h
    | cons q l => rfl
  rw [center_to_origin_of_ne_nil _ hcne, hidx, hcd_i0]
  have hfun : (fun q : ℚ × ℚ => (q.1 - ((0 : ℚ), (0 : ℚ)).1, q.2 - ((0 : ℚ), (0 : ℚ)).2))
      = id := by
    funext q
    simp
  rw [hfun, List.map_id]

theorem flagDiffs_length : ∀ xs : List ℚ, (flagDiffs xs).length = xs.length
  | [] => rfl
  | x :: tail => by
    simp only [flagDiffs, List.length_cons, List.length_zipWith]
    omega

theorem getD_zipWith_flags : ∀ (as bs : List ℚ) (j : ℕ),
    (List.zipWith (fun a b => decide (|b - a| > BREAKAWAY_DISP_UM)) as bs).getD j false =
      if j < min as.length bs.length then
        decide (|bs.getD j 0 - as.getD j 0| > BREAKAWAY_DISP_UM)
      else false
  | [], bs, j => by simp
  | a :: as, [], j => by simp
  | a :: as, b :: bs, 0 => by simp
  | a :: as, b :: bs, j + 1 => by
    simp only [List.zipWith_cons_cons, List.getD_cons_succ, List.length_cons]
    rw [getD_zipWith_flags as bs j]
    by_cases hj : j < min as.length bs.length
    · rw [if_pos hj, if_pos (by omega)]
    · rw [if_neg hj, if_neg (by omega)]

/-- The flag at position `j`: set iff `j ≥ 1`, `j` is in range, and the
sample-to-sample displacement difference at `j` exceeds the threshold. -/
theorem flagDiffs_getD (xs : List ℚ) (j : ℕ) :
    (flagDiffs xs).getD j false = true ↔
      (1 ≤ j ∧ j < xs.length ∧
        |xs.getD j 0 - xs.getD (j - 1) 0| > BREAKAWAY_DISP_UM) := by
  cases xs with
  | nil => simp [flagDiffs]
  | cons x tail =>
    cases j with
    | zero => simp [flagDiffs]
    | succ j0 =>
      show (List.zipWith _ (x :: tail) tail).getD j0 false = true ↔ _
      rw [getD_zipWith_flags]
      by_cases hc : j0 < tail.length
      · rw [if_pos (by simp; omega)]
        simp only [decide_eq_true_eq, List.getD_cons_succ, Nat.succ_sub_one,
          List.length_cons]
        constructor
        · intro hgt
          exact ⟨by omega, by omega, hgt⟩
        · intro hgt
          exact hgt.2.2
      · rw [if_neg (by simp; omega)]
        simp only [List.length_cons]
        constructor
        · intro hfalse
          exact absurd hfalse (by simp)
        · intro hgt
          omega

theorem tripleAt_cons (a : Bool) (rest : List Bool) (j : ℕ) :
    tripleAt (a :: rest) (j + 1) = tripleAt rest j := rfl

theorem firstTriple_false_cons (rest : List Bool) :
    firstTriple (false :: rest) = (firstTriple rest).map (· + 1) := rfl

/-- The scanning loop computes the least position starting three consecutive
flagged positions, offset by the starting index `i`. -/
theorem baScan_aux : ∀ (n : ℕ) (l : List Bool) (i : ℕ), l.length ≤ n →
    baScan i 0 none l = (firstTriple l).map (· + i)
  | _, [], _, _ => rfl
  | 0, _ :: _, _, h => by simp at h
  | n + 1, false :: rest, i, h => by
    have h1 : rest.length ≤ n := by simp at h; omega
    have hrec := baScan_aux n rest (i + 1) h1
    show baScan (i + 1) 0 none rest = ((firstTriple rest).map (· + 1)).map (· + i)
    rw [hrec]
    cases firstTriple rest with
    | none => rfl
    | some x => simp; omega
  | n + 1, [true], i, h => rfl
  | n + 1, [true, true], i, h => rfl
  | n + 1, true :: true :: true :: rest, i, h => by
    show some i = (some 0).map (· + i)
    simp
  | n + 1, true :: true :: false :: rest, i, h => by
    have h1 : rest.length ≤ n := by simp at h; omega
    have hrec := baScan_aux n rest (i + 3) h1
    show baScan (i + 3) 0 none rest =
      ((((firstTriple rest).map (· + 1)).map (· + 1)).map (· + 1)).map (· + i)
    rw [hrec]
    cases firstTriple rest with
    | none => rfl
    | some x => simp; omega
  | n + 1, true :: false :: rest, i, h => by
    have h1 : rest.length ≤ n := by simp at h; omega
    have hrec := baScan_aux n rest (i + 2) h1
    show baScan (i + 2) 0 none rest =
      (((firstTriple rest).map (· + 1)).map (· + 1)).map (· + i)
    rw [hrec]
    cases firstTriple rest with
    | none => rfl
    | some x => simp; omega

theorem ft_step (l rest : List Bool) (r : ℕ)
    (h1 : firstTriple l = (firstTriple rest).map (· + 1))
    (h2 : tripleAt l 0 = false)
    (h3 : ∀ j, tripleAt l (j + 1) = tripleAt rest j)
    (ih : ∀ r0, firstTriple rest = some r0 ↔
      tripleAt rest r0 = true ∧ ∀ j < r0, tripleAt rest j = false) :
    firstTriple l = some r ↔
      tripleAt l r = true ∧ ∀ j < r, tripleAt l j = false := by
  cases r with
  | zero =>
    constructor
    · intro h
      rw [h1] at h
      cases hx : firstTriple rest <;> rw [hx] at h <;> simp at h
    · intro hc
      rw [h2] at hc
      exact absurd hc.1 (by simp)
  | succ r0 =>
    rw [h1]
    constructor
    · intro h
      obtain ⟨x, hx, hxr⟩ := Option.map_eq_some'.mp h
      have hx0 : x = r0 := by simpa using hxr
      rw [hx0] at hx
      obtain ⟨ha, hb⟩ := (ih r0).mp hx
      refine ⟨by rw [h3]; exact ha, ?_⟩
      intro j hj
      cases j with
      | zero => exact h2
      | succ j0 =>
        rw [h3]
        exact hb j0 (by omega)
    · intro hc
      obtain ⟨ha, hb⟩ := hc
      have ha2 : tripleAt rest r0 = true := by rw [← h3]; exact ha
      have hb2 : ∀ j < r0, tripleAt rest j = false := fun j hj => by
        rw [← h3]
        exact hb (j + 1) (by omega)
      rw [(ih r0).mpr ⟨ha2, hb2⟩]
      rfl

/-- Here `firstTriple` returns exactly the least position at which three
consecutive flagged positions start. -/
theorem firstTriple_spec : ∀ (l : List Bool) (r : ℕ),
    firstTriple l = some r ↔
      tripleAt l r = true ∧ ∀ j < r, tripleAt l j = false
  | [], r => by simp [firstTriple, tripleAt]
  | true :: true :: true :: t, r => by
    show some 0 = some r ↔ _
    constructor
    · intro h
      obtain rfl : 0 = r := Option.some.inj h
      exact ⟨rfl, fun j hj => absurd hj (by omega)⟩
    · intro hc
      match r, hc with
      | 0, _ => rfl
      | r0 + 1, ⟨_, hmin⟩ =>
        have h0 := hmin 0 (by omega)
        rw [show tripleAt (true :: true :: true :: t) 0 = true from rfl] at h0
        simp at h0
  | false :: rest, r =>
    ft_step _ rest r rfl rfl (fun j => rfl) (firstTriple_spec rest)
  | [true], r =>
    ft_step _ [] r rfl rfl (fun j => rfl) (firstTriple_spec [])
  | [true, true], r =>
    ft_step _ [true] r rfl rfl (fun j => rfl) (firstTriple_spec [true])
  | true :: false :: rest, r =>
    ft_step _ (false :: rest) r rfl rfl (fun j => rfl) (firstTriple_spec (false :: rest))
  | true :: true :: false :: rest, r =>
    ft_step _ (true :: false :: rest) r rfl rfl (fun j => rfl)
      (firstTriple_spec (true :: false :: rest))

theorem firstTriple_eq_none_of_any_false :
    ∀ l : List Bool, l.any id = false → firstTriple l = none
  | [], _ => rfl
  | a :: rest, h => by
    have hsplit : a = false ∧ rest.any id = false := by
      simpa using h
    obtain ⟨rfl, hrest⟩ := hsplit
    rw [firstTriple_false_cons, firstTriple_eq_none_of_any_false rest hrest]
    rfl

theorem find_breakaway_eq (xs : List ℚ) :
    find_breakaway_index xs = firstTriple (flagDiffs xs) := by
  rw [find_breakaway_index]
  by_cases he : xs.isEmpty
  · rw [if_pos he]
    obtain rfl : xs = [] := by
      cases xs with
      | nil => rfl
      | cons x t => simp at he
    rfl
  · rw [if_neg he]
    by_cases ha : (flagDiffs xs).any id = false
    · rw [if_pos ha, firstTriple_eq_none_of_any_false _ ha]
    · rw [if_neg ha, baScan_aux (flagDiffs xs).length (flagDiffs xs) 0 le_rfl]
      cases firstTriple (flagDiffs xs) <;> simp

/-- Detection returns `some r` exactly when `r` is the least
position starting a run of three consecutive flagged positions. -/
theorem find_breakaway_char (xs : List ℚ) (r : ℕ) :
    find_breakaway_index xs = some r ↔
      tripleAt (flagDiffs xs) r = true ∧ ∀ j < r, tripleAt (flagDiffs xs) j = false := by
  rw [find_breakaway_eq]
  exact firstTriple_spec (flagDiffs xs) r

/-- Witness for C7 on a concrete two-sample curve. -/
theorem c7_center_to_origin_witness :
    (center_to_origin [((1 : ℚ), (2 : ℚ)), (3, 4)]).getD
      (firstMinAbsIdx ((center_to_origin [((1 : ℚ), (2 : ℚ)), (3, 4)]).map Prod.fst))
      (0, 0) = (0, 0) ∧
    center_to_origin (center_to_origin [((1 : ℚ), (2 : ℚ)), (3, 4)]) =
      center_to_origin [((1 : ℚ), (2 : ℚ)), (3, 4)] :=
  c7_center_to_origin [(1, 2), (3, 4)] (by simp)

theorem headD_eq_getD {α : Type} (l : List α) (d : α) : l.headD d = l.getD 0 d := by
  cases l <;> rfl

theorem getLastD_eq_getD {α : Type} :
    ∀ (l : List α) (d : α), l.getLastD d = l.getD (l.length - 1) d
  | [], _ => rfl
  | [_], _ => rfl
  | a :: b :: t, d => by
    rw [List.getLastD_cons, getLastD_eq_getD (b :: t) a]
    have h2 : (a :: b :: t).length - 1 = ((b :: t).length - 1) + 1 := by simp
    rw [h2, List.getD_cons_succ]
    rw [List.getD_eq_getElem _ _ (by simp), List.getD_eq_getElem _ _ (by simp)]

theorem getLastD_mem {α : Type} (l : List α) (d : α) (h : l ≠ []) :
    l.getLastD d ∈ l := by
  rw [getLastD_eq_getD]
  rw [List.getD_eq_getElem _ _ (Nat.sub_lt (List.length_pos.mpr h) one_pos)]
  exact List.getElem_mem _

theorem le_getLastD_of_sorted : ∀ (l : List (ℚ × ℤ)) (d : ℚ × ℤ),
    List.Pairwise (fun p q => p.1 < q.1) l → ∀ q ∈ l, q.1 ≤ (l.getLastD d).1
  | [], _, _, q, hq => by simp at hq
  | a :: t, d, hs, q, hq => by
    rw [List.getLastD_cons]
    rcases List.mem_cons.mp hq with rfl | hq2
    · cases t with
      | nil => exact le_refl _
      | cons b t2 =>
        exact le_of_lt (List.rel_of_pairwise_cons hs
          (getLastD_mem (b :: t2) q (by simp)))
    · cases t with
      | nil => simp at hq2
      | cons b t2 =>
        exact le_getLastD_of_sorted (b :: t2) a hs.of_cons q hq2

theorem extendEdges_head (t : ℚ) (v : ℤ) (rest : List (ℚ × ℤ)) (t0 t1 : ℚ)
    (hle : t0 ≤ t) :
    ∃ v0 tl, extendEdges ((t, v) :: rest) t0 t1 = (t0, v0) :: tl := by
  simp only [extendEdges]
  by_cases h : t0 < t
  · rw [if_pos h]
    exact ⟨v, _, rfl⟩
  · have ht : t = t0 := le_antisymm (not_lt.mp h) hle
    subst ht
    rw [if_neg h]
    by_cases h2 : (((t, v) :: rest).getLastD (t, v)).1 < t1
    · rw [if_pos h2]
      exact ⟨v, _, by rw [List.cons_append]⟩
    · rw [if_neg h2]
      exact ⟨v, _, rfl⟩

theorem mem_dropLast_lt_getLastD (l : List (ℚ × ℤ)) (d : ℚ × ℤ)
    (hs : List.Pairwise (fun p q => p.1 < q.1) l) :
    ∀ q ∈ l.dropLast, q.1 < (l.getLastD d).1 := by
  intro q hq
  have hne : l ≠ [] := by
    intro hnil
    rw [hnil] at hq
    simp at hq
  have hgl : l.getLastD d = l.getLast hne := by
    rw [List.getLastD_eq_getLast?, List.getLast?_eq_getLast l hne]
    rfl
  rw [hgl]
  have hs2 : List.Pairwise (fun p q => p.1 < q.1)
      (l.dropLast ++ [l.getLast hne]) := by
    rw [List.dropLast_append_getLast hne]
    exact hs
  exact (List.pairwise_append.mp hs2).2.2 q hq _ (by simp)

theorem sorted_append_last (l : List (ℚ × ℤ)) (d : ℚ × ℤ) (t1 : ℚ) (w : ℤ)
    (hs : List.Pairwise (fun p q => p.1 < q.1) l)
    (hlast : (l.getLastD d).1 < t1) :
    List.Pairwise (fun p q => p.1 < q.1) (l ++ [(t1, w)]) := by
  rw [List.pairwise_append]
  refine ⟨hs, by simp, ?_⟩
  intro a ha b hb
  simp only [List.mem_singleton] at hb
  subst hb
  show a.1 < t1
  exact lt_of_le_of_lt (le_getLastD_of_sorted l d hs a ha) hlast

theorem extendEdges_sorted (t : ℚ) (v : ℤ) (rest : List (ℚ × ℤ)) (t0 t1 : ℚ)
    (hs : List.Pairwise (fun p q => p.1 < q.1) ((t, v) :: rest))
    (hr : ∀ q ∈ (t, v) :: rest, t0 ≤ q.1 ∧ q.1 ≤ t1) :
    List.Pairwise (fun p q => p.1 < q.1) (extendEdges ((t, v) :: rest) t0 t1) := by
  simp only [extendEdges]
  by_cases h : t0 < t
  · rw [if_pos h]
    have hall : ∀ q ∈ (t, v) :: rest, t0 < q.1 := by
      intro q hq
      rcases List.mem_cons.mp hq with rfl | hq2
      · exact h
      · exact lt_trans h (List.rel_of_pairwise_cons hs hq2)
    have ht0t1 : t0 < t1 := lt_of_lt_of_le h (hr (t, v) (by simp)).2
    by_cases h2 : (((t, v) :: rest).getLastD (t0, v)).1 = t1
    · rw [if_pos h2]
      refine List.pairwise_cons.mpr ⟨?_, ?_⟩
      · intro q hq
        rcases List.mem_append.mp hq with hq2 | hq2
        · exact hall q ((List.dropLast_sublist _).subset hq2)
        · rw [List.mem_singleton] at hq2
          subst hq2
          exact ht0t1
      · rw [List.pairwise_append]
        refine ⟨List.Pairwise.sublist (List.dropLast_sublist _) hs, by simp, ?_⟩
        intro a ha b hb
        rw [List.mem_singleton] at hb
        subst hb
        show a.1 < t1
        have := mem_dropLast_lt_getLastD ((t, v) :: rest) (t0, v) hs a ha
        rw [h2] at this
        exact this
    · rw [if_neg h2]
      have hlast : (((t, v) :: rest).getLastD (t0, v)).1 < t1 := by
        have hle := (hr _ (getLastD_mem ((t, v) :: rest) (t0, v) (by simp))).2
        exact lt_of_le_of_ne hle h2
      refine List.pairwise_cons.mpr ⟨?_, sorted_append_last _ _ _ _ hs hlast⟩
      intro q hq
      rcases List.mem_append.mp hq with hq2 | hq2
      · exact hall q hq2
      · rw [List.mem_singleton] at hq2
        subst hq2
        exact ht0t1
  · rw [if_neg h]
    by_cases h2 : (((t, v) :: rest).getLastD (t0, v)).1 < t1
    · rw [if_pos h2]
      exact sorted_append_last _ _ _ _ hs h2
    · rw [if_neg h2]
      exact hs

theorem changeIdx_head (se : List (ℚ × ℤ)) (hne : se ≠ []) :
    ∃ tl, changeIdx se = 0 :: tl := by
  obtain ⟨a, t, rfl⟩ := List.exists_cons_of_ne_nil hne
  simp only [changeIdx, List.length_cons, List.range_succ_eq_map, List.filter_cons]
  rw [if_pos (by simp)]
  exact ⟨_, rfl⟩

theorem changeIdx_sorted (se : List (ℚ × ℤ)) :
    List.Pairwise (· < ·) (changeIdx se) :=
  (List.pairwise_lt_range se.length).filter _

theorem changeIdx_lt_length (se : List (ℚ × ℤ)) :
    ∀ i ∈ changeIdx se, i < se.length := by
  intro i hi
  exact List.mem_range.mp (List.mem_filter.mp hi).1

/-- The emitted segments cover `[first change time, t1]` contiguously: the
list is non-empty, starts at the first sample's time, ends at `t1`, each
segment's end is the next segment's start, and starts strictly increase. -/
theorem segsOf_spec (se : List (ℚ × ℤ)) (t1 : ℚ) (hne : se ≠ [])
    (hsort : List.Pairwise (fun p q => p.1 < q.1) se) :
    segsOf se t1 ≠ [] ∧
    ((segsOf se t1).headD (0, 0, 0)).1 = (se.headD (0, 0)).1 ∧
    ((segsOf se t1).getLastD (0, 0, 0)).2.1 = t1 ∧
    (∀ k, k + 1 < (segsOf se t1).length →
      ((segsOf se t1).getD k (0, 0, 0)).2.1 =
        ((segsOf se t1).getD (k + 1) (0, 0, 0)).1) ∧
    List.Pairwise (fun u v => u.1 < v.1) (segsOf se t1) := by
  obtain ⟨itl, hidx⟩ := changeIdx_head se hne
  have hlen : (segsOf se t1).length = (changeIdx se).length := by
    simp [segsOf]
  have hnpos : 0 < (changeIdx se).length := by rw [hidx]; simp
  have hget : ∀ k, k < (changeIdx se).length →
      (segsOf se t1).getD k (0, 0, 0) =
        ((se.getD ((changeIdx se).getD k 0) (0, 0)).1,
         if k + 1 < (changeIdx se).length then
           (se.getD ((changeIdx se).getD (k + 1) 0) (0, 0)).1
         else t1,
         (se.getD ((changeIdx se).getD k 0) (0, 0)).2) := by
    intro k hk
    rw [List.getD_eq_getElem _ _ (by rw [hlen]; exact hk)]
    simp only [segsOf, List.getElem_map, List.getElem_range]
  have hidxlt : ∀ i, (hi : i < (changeIdx se).length) →
      (changeIdx se).getD i 0 < se.length := by
    intro i hi
    refine changeIdx_lt_length se _ ?_
    rw [List.getD_eq_getElem _ _ hi]
    exact List.getElem_mem _
  have hidxmono : ∀ i j, i < j → (hj : j < (changeIdx se).length) →
      (changeIdx se).getD i 0 < (changeIdx se).getD j 0 := by
    intro i j hij hj
    have hi : i < (changeIdx se).length := lt_trans hij hj
    have hp := List.pairwise_iff_get.mp (changeIdx_sorted se) ⟨i, hi⟩ ⟨j, hj⟩
      (Fin.mk_lt_mk.mpr hij)
    rw [List.getD_eq_getElem _ _ hi, List.getD_eq_getElem _ _ hj]
    simpa using hp
  have hsemono : ∀ a b, a < b → (hb : b < se.length) →
      (se.getD a (0, 0)).1 < (se.getD b (0, 0)).1 := by
    intro a b hab hb
    have ha : a < se.length := lt_trans hab hb
    have hp := List.pairwise_iff_get.mp hsort ⟨a, ha⟩ ⟨b, hb⟩
      (Fin.mk_lt_mk.mpr hab)
    rw [List.getD_eq_getElem _ _ ha, List.getD_eq_getElem _ _ hb]
    simpa using hp
  refine ⟨?_, ?_, ?_, ?_, ?_⟩
  · rw [← List.length_pos, hlen]
    exact hnpos
  · rw [headD_eq_getD, hget 0 hnpos, headD_eq_getD se]
    simp [hidx]
  · rw [getLastD_eq_getD, hlen, hget ((changeIdx se).length - 1) (by omega)]
    have hiff : ¬ ((changeIdx se).length - 1 + 1 < (changeIdx se).length) := by
      omega
    simp [hiff]
  · intro k hk
    rw [hlen] at hk
    rw [hget k (by omega), hget (k + 1) (by omega)]
    show (if k + 1 < (changeIdx se).length then
        (se.getD ((changeIdx se).getD (k + 1) 0) (0, 0)).1 else t1) = _
    rw [if_pos (by omega)]
  · rw [List.pairwise_iff_get]
    intro i j hij
    have hi : (i : ℕ) < (changeIdx se).length := by rw [← hlen]; exact i.isLt
    have hj : (j : ℕ) < (changeIdx se).length := by rw [← hlen]; exact j.isLt
    rw [List.get_eq_getElem, List.get_eq_getElem,
      ← List.getD_eq_getElem (segsOf se t1) (0, 0, 0) i.isLt,
      ← List.getD_eq_getElem (segsOf se t1) (0, 0, 0) j.isLt,
      hget (i : ℕ) hi, hget (j : ℕ) hj]
    show (se.getD ((changeIdx se).getD (i : ℕ) 0) (0, 0)).1 <
      (se.getD ((changeIdx se).getD (j : ℕ) 0) (0, 0)).1
    exact hsemono _ _ (hidxmono (i : ℕ) (j : ℕ) hij hj) (hidxlt (j : ℕ) hj)

theorem getLastD_cons_indep (b : ℚ × ℚ) (t : List (ℚ × ℚ)) (d e : ℚ × ℚ) :
    (b :: t).getLastD d = (b :: t).getLastD e := by
  rw [List.getLastD_cons, List.getLastD_cons]

theorem floor_step_lt (x s : ℚ) (hs : 0 < s) (hx : s < x) :
    Nat.floor ((x - s) / s) < Nat.floor (x / s) := by
  have heq : (x - s) / s = x / s - 1 := by
    rw [sub_div, div_self (ne_of_gt hs)]
  have hy1 : (1 : ℚ) ≤ x / s := by
    rw [le_div_iff₀ hs]
    linarith
  rw [heq, Nat.floor_lt (by linarith)]
  have hfl := Nat.lt_floor_add_one (x / s)
  linarith

theorem chunkLoop_single (delta overlap endT : ℚ) (hov : 0 ≤ overlap)
    (hlt : overlap < delta) (cs : ℚ) (hcs : cs < endT)
    (h2 : endT ≤ min (cs + delta) endT) :
    chunkLoop delta overlap endT hov hlt cs = [(cs, endT)] := by
  rw [chunkLoop, dif_pos hcs, dif_pos h2, le_antisymm (min_le_right _ _) h2]

theorem chunkLoop_cons (delta overlap endT : ℚ) (hov : 0 ≤ overlap)
    (hlt : overlap < delta) (cs : ℚ) (hcs : cs < endT)
    (h2 : ¬ endT ≤ min (cs + delta) endT) :
    chunkLoop delta overlap endT hov hlt cs =
      (cs, min (cs + delta) endT) ::
        chunkLoop delta overlap endT hov hlt (min (cs + delta) endT - overlap) := by
  rw [chunkLoop, dif_pos hcs, dif_neg h2]

/-- The chunk loop, started below `endT`, yields a non-empty list whose first
chunk starts at the start point, whose last chunk ends at `endT`, and in
which every chunk starts no later than the previous chunk's end. -/
theorem chunkLoop_spec (delta overlap endT : ℚ) (hov : 0 ≤ overlap)
    (hlt : overlap < delta) :
    ∀ (k : ℕ) (cs : ℚ), Nat.floor ((endT - cs) / (delta - overlap)) ≤ k →
      cs < endT →
      (chunkLoop delta overlap endT hov hlt cs ≠ [] ∧
       ((chunkLoop delta overlap endT hov hlt cs).headD (0, 0)).1 = cs ∧
       ((chunkLoop delta overlap endT hov hlt cs).getLastD (0, 0)).2 = endT ∧
       List.Chain' (fun p q => q.1 ≤ p.2)
         (chunkLoop delta overlap endT hov hlt cs)) := by
  intro k
  induction k with
  | zero =>
    intro cs hk hcs
    have h2 : endT ≤ min (cs + delta) endT := by
      by_contra h2
      have hmlt : min (cs + delta) endT < endT := not_le.mp h2
      have hce : min (cs + delta) endT = cs + delta := by
        rcases min_cases (cs + delta) endT with ⟨he, _⟩ | ⟨he, _⟩
        · exact he
        · rw [he] at hmlt
          exact absurd hmlt (lt_irrefl _)
      rw [hce] at hmlt
      have hs : 0 < delta - overlap := by linarith
      have h1 : (1 : ℚ) ≤ (endT - cs) / (delta - overlap) := by
        rw [le_div_iff₀ hs]
        linarith
      have hfl : 1 ≤ Nat.floor ((endT - cs) / (delta - overlap)) :=
        Nat.le_floor (by exact_mod_cast h1)
      omega
    rw [chunkLoop_single delta overlap endT hov hlt cs hcs h2]
    exact ⟨by simp, rfl, rfl, by simp⟩
  | succ k ih =>
    intro cs hk hcs
    by_cases h2 : endT ≤ min (cs + delta) endT
    · rw [chunkLoop_single delta overlap endT hov hlt cs hcs h2]
      exact ⟨by simp, rfl, rfl, by simp⟩
    · have hmlt : min (cs + delta) endT < endT := not_le.mp h2
      have hce : min (cs + delta) endT = cs + delta := by
        rcases min_cases (cs + delta) endT with ⟨he, _⟩ | ⟨he, _⟩
        · exact he
        · rw [he] at hmlt
          exact absurd hmlt (lt_irrefl _)
      have hmlt2 : cs + delta < endT := by rw [hce] at hmlt; exact hmlt
      have hcs2 : min (cs + delta) endT - overlap < endT := by
        rw [hce]
        linarith
      have hdec : Nat.floor ((endT - (min (cs + delta) endT - overlap)) /
          (delta - overlap)) < Nat.floor ((endT - cs) / (delta - overlap)) := by
        rw [hce]
        have heq2 : endT - (cs + delta - overlap) =
            (endT - cs) - (delta - overlap) := by ring
        rw [heq2]
        exact floor_step_lt (endT - cs) (delta - overlap) (by linarith) (by linarith)
      obtain ⟨hne, hhead, hlast, hchain⟩ :=
        ih (min (cs + delta) endT - overlap) (by omega) hcs2
      rw [chunkLoop_cons delta overlap endT hov hlt cs hcs h2]
      obtain ⟨b, t, hbt⟩ := List.exists_cons_of_ne_nil hne
      refine ⟨by simp, rfl, ?_, ?_⟩
      · rw [List.getLastD_cons, hbt,
          getLastD_cons_indep b t (cs, min (cs + delta) endT) (0, 0), ← hbt]
        exact hlast
      · rw [List.chain'_cons']
        refine ⟨?_, hchain⟩
        intro y hy
        rw [hbt] at hy
        simp only [List.head?_cons, Option.mem_some_iff] at hy
        subst hy
        have hb1 : b.1 = min (cs + delta) endT - overlap := by
          rw [hbt] at hhead
          exact hhead
        rw [hb1]
        show min (cs + delta) endT - overlap ≤ min (cs + delta) endT
        linarith

/-- C8: for `start < end`, `days > 0` and any `overlap_hours ≥ 0`, the chunk
generator (total by construction, so it terminates — including the case
`overlap_hours ≥ days * 24`, where the overlap is forced to zero) yields a
non-empty chunk list whose first chunk begins at `start`, whose last chunk
ends at `end`, and in which each subsequent chunk starts no later than the
previous chunk's end; moreover when `overlap_hours ≥ days * 24` the output is
exactly the output for zero overlap. -/
theorem c8_chunk_ranges_utc :
    ∀ (start endT : ℚ) (days overlap_hours : ℕ) (hd : 0 < days),
      (start < endT →
        (chunk_ranges_utc start endT days overlap_hours hd ≠ [] ∧
         ((chunk_ranges_utc start endT days overlap_hours hd).headD (0, 0)).1 =
           start ∧
         ((chunk_ranges_utc start endT days overlap_hours hd).getLastD (0, 0)).2 =
           endT ∧
         List.Chain' (fun p q => q.1 ≤ p.2)
           (chunk_ranges_utc start endT days overlap_hours hd))) ∧
      (days * 24 ≤ overlap_hours →
        chunk_ranges_utc start endT days overlap_hours hd =
          chunk_ranges_utc start endT days 0 hd) := by
  intro start endT days overlap_hours hd
  constructor
  · intro hse
    simp only [chunk_ranges_utc]
    by_cases hcase : (24 * days : ℚ) ≤ (overlap_hours : ℚ)
    · rw [dif_pos hcase]
      exact chunkLoop_spec _ _ _ _ _
        (Nat.floor ((endT - start) / (24 * days - 0))) start le_rfl hse
    · rw [dif_neg hcase]
      exact chunkLoop_spec _ _ _ _ _
        (Nat.floor ((endT - start) / (24 * days - overlap_hours))) start le_rfl hse
  · intro hov24
    simp only [chunk_ranges_utc]
    have hc1 : (24 * days : ℚ) ≤ (overlap_hours : ℚ) := by
      have : ((days * 24 : ℕ) : ℚ) ≤ ((overlap_hours : ℕ) : ℚ) := by
        exact_mod_cast hov24
      push_cast at this
      linarith
    have hdq : (0 : ℚ) < days := by exact_mod_cast hd
    have hc2 : ¬ (24 * days : ℚ) ≤ (((0 : ℕ) : ℚ)) := by
      push_cast
      nlinarith
    rw [dif_pos hc1, dif_neg hc2]
    norm_num

/-- Witness for C8 on a concrete range: 30 hours chunked in 1-day chunks with
2-hour overlap, and the forced-zero-overlap case `overlap_hours = 30`. -/
theorem c8_chunk_ranges_utc_witness :
    chunk_ranges_utc 0 30 1 2 (by norm_num) ≠ [] ∧
    chunk_ranges_utc 0 30 1 30 (by norm_num) =
      chunk_ranges_utc 0 30 1 0 (by norm_num) := by
  constructor
  · exact ((c8_chunk_ranges_utc 0 30 1 2 (by norm_num)).1 (by norm_num)).1
  · exact (c8_chunk_ranges_utc 0 30 1 30 (by norm_num)).2 (by norm_num)

/-- The first-maximum fold: its result occurs in `c :: cs`, every earlier
element is strictly shorter, and no element is longer. -/
theorem maxByDurFirst_spec : ∀ (cs : List (ℚ × ℚ)) (c : ℚ × ℚ),
    ∃ l1 l2, c :: cs = l1 ++ (maxByDurFirst c cs) :: l2 ∧
      (∀ d ∈ l1, d.2 - d.1 < (maxByDurFirst c cs).2 - (maxByDurFirst c cs).1) ∧
      (∀ d ∈ c :: cs, d.2 - d.1 ≤ (maxByDurFirst c cs).2 - (maxByDurFirst c cs).1)
  | [], c => ⟨[], [], rfl, by simp, by simp [maxByDurFirst]⟩
  | y :: ys, c => by
    rw [show maxByDurFirst c (y :: ys) =
      maxByDurFirst (if y.2 - y.1 > c.2 - c.1 then y else c) ys from rfl]
    by_cases hyc : y.2 - y.1 > c.2 - c.1
    · rw [if_pos hyc]
      obtain ⟨l1, l2, hdec, hstrict, hmax⟩ := maxByDurFirst_spec ys y
      refine ⟨c :: l1, l2, by rw [List.cons_append, ← hdec], ?_, ?_⟩
      · intro d hd
        rcases List.mem_cons.mp hd with rfl | hd
        · exact lt_of_lt_of_le hyc (hmax y (by simp))
        · exact hstrict d hd
      · intro d hd
        rcases List.mem_cons.mp hd with rfl | hd
        · exact le_of_lt (lt_of_lt_of_le hyc (hmax y (by simp)))
        · exact hmax d hd
    · rw [if_neg hyc]
      obtain ⟨l1, l2, hdec, hstrict, hmax⟩ := maxByDurFirst_spec ys c
      cases l1 with
      | nil =>
        simp only [List.nil_append, List.cons.injEq] at hdec
        obtain ⟨hc, hys⟩ := hdec
        refine ⟨[], y :: ys, by rw [List.nil_append, ← hc], by simp, ?_⟩
        intro d hd
        rcases List.mem_cons.mp hd with rfl | hd
        · rw [← hc]
        · rcases List.mem_cons.mp hd with rfl | hd
          · rw [← hc]
            exact not_lt.mp hyc
          · exact hmax d (List.mem_cons_of_mem c hd)
      | cons c1 l1t =>
        simp only [List.cons_append, List.cons.injEq] at hdec
        obtain ⟨hc, hys⟩ := hdec
        have hcstrict : c.2 - c.1 <
            (maxByDurFirst c ys).2 - (maxByDurFirst c ys).1 := by
          have := hstrict c1 (by simp)
          rw [← hc] at this
          exact this
        refine ⟨c :: y :: l1t, l2, ?_, ?_, ?_⟩
        · conv_lhs => rw [hys]
          simp
        · intro d hd
          rcases List.mem_cons.mp hd with rfl | hd
          · exact hcstrict
          · rcases List.mem_cons.mp hd with rfl | hd
            · exact lt_of_le_of_lt (not_lt.mp hyc) hcstrict
            · exact hstrict d (List.mem_cons_of_mem c1 hd)
        · intro d hd
          rcases List.mem_cons.mp hd with rfl | hd
          · exact le_of_lt hcstrict
          · rcases List.mem_cons.mp hd with rfl | hd
            · exact le_of_lt (lt_of_le_of_lt (not_lt.mp hyc) hcstrict)
            · exact hmax d (List.mem_cons_of_mem c hd)

/-- C9: `pick_longest_segment` returns `none` exactly when no segment matches
the target state with positive duration; a returned candidate `(a, b)` comes
from a matching segment of `segs` with `a < b`, has maximal duration among
all candidates, and every candidate placed before it in encounter order is
strictly shorter (so on exact ties the first-encountered candidate wins). -/
theorem c9_pick_longest_segment :
    ∀ (segs : List (ℚ × ℚ × ℤ)) (t : ℤ),
      (pick_longest_segment segs t = none ↔
        ∀ s ∈ segs, ¬(s.2.2 = t ∧ s.1 < s.2.1)) ∧
      (∀ c, pick_longest_segment segs t = some c →
        ((c.1, c.2, t) ∈ segs ∧ c.1 < c.2) ∧
        (∀ s ∈ segs, s.2.2 = t → s.1 < s.2.1 → s.2.1 - s.1 ≤ c.2 - c.1) ∧
        (∃ l1 l2,
          (segs.filter (fun s => decide (s.2.2 = t ∧ s.1 < s.2.1))).map
              (fun s => (s.1, s.2.1)) = l1 ++ c :: l2 ∧
          ∀ d ∈ l1, d.2 - d.1 < c.2 - c.1)) := by
  intro segs t
  constructor
  · cases hc : (segs.filter (fun s => decide (s.2.2 = t ∧ s.1 < s.2.1))).map
        (fun s => (s.1, s.2.1)) with
    | nil =>
      rw [List.map_eq_nil_iff, List.filter_eq_nil_iff] at hc
      constructor
      · intro _ s hs
        have := hc s hs
        simpa using this
      · intro _
        simp only [pick_longest_segment]
        rw [show (segs.filter (fun s => decide (s.2.2 = t ∧ s.1 < s.2.1))).map
            (fun s => (s.1, s.2.1)) = [] from by
          rw [List.map_eq_nil_iff, List.filter_eq_nil_iff]; exact hc]
    | cons c0 cs =>
      constructor
      · intro hnone
        exfalso
        simp only [pick_longest_segment] at hnone
        rw [hc] at hnone
        simp at hnone
      · intro hall
        exfalso
        have : c0 ∈ (segs.filter (fun s => decide (s.2.2 = t ∧ s.1 < s.2.1))).map
            (fun s => (s.1, s.2.1)) := by rw [hc]; simp
        obtain ⟨s, hsmem, _⟩ := List.mem_map.mp this
        obtain ⟨hsegs, hpred⟩ := List.mem_filter.mp hsmem
        exact hall s hsegs (by simpa using hpred)
  · intro c hsome
    simp only [pick_longest_segment] at hsome
    cases hc : (segs.filter (fun s => decide (s.2.2 = t ∧ s.1 < s.2.1))).map
        (fun s => (s.1, s.2.1)) with
    | nil =>
      rw [hc] at hsome
      simp at hsome
    | cons c0 cs =>
      rw [hc] at hsome
      simp only [Option.some.injEq] at hsome
      obtain ⟨l1, l2, hdec, hstrict, hmax⟩ := maxByDurFirst_spec cs c0
      rw [hsome] at hdec hstrict hmax
      have hcmem : c ∈ (segs.filter (fun s => decide (s.2.2 = t ∧ s.1 < s.2.1))).map
          (fun s => (s.1, s.2.1)) := by
        rw [hc, hdec]
        exact List.mem_append.mpr (Or.inr (by simp))
      obtain ⟨s, hsmem, hsc⟩ := List.mem_map.mp hcmem
      obtain ⟨hsegs, hpred⟩ := List.mem_filter.mp hsmem
      have hpred2 : s.2.2 = t ∧ s.1 < s.2.1 := by simpa using hpred
      refine ⟨⟨?_, ?_⟩, ?_, ?_⟩
      · have hs_eq : (c.1, c.2, t) = s := by
          rw [← hsc, ← hpred2.1]
        rw [hs_eq]
        exact hsegs
      · rw [← hsc]
        exact hpred2.2
      · intro s2 hs2 hst hsdur
        have hmem2 : (s2.1, s2.2.1) ∈
            (segs.filter (fun s => decide (s.2.2 = t ∧ s.1 < s.2.1))).map
              (fun s => (s.1, s.2.1)) := by
          exact List.mem_map.mpr ⟨s2, List.mem_filter.mpr ⟨hs2, by simp [hst, hsdur]⟩, rfl⟩
        rw [hc] at hmem2
        exact hmax (s2.1, s2.2.1) hmem2
      · exact ⟨l1, l2, hdec, hstrict⟩

/-- Witness for C9: on three segments of which two tie at the maximal
duration, the detector keeps the first-encountered one. -/
theorem c9_pick_longest_segment_witness :
    ((2 : ℚ), (5 : ℚ), (7 : ℤ)) ∈
        [((0 : ℚ), (1 : ℚ), (7 : ℤ)), (2, 5, 7), (6, 9, 7)] ∧
      (2 : ℚ) < (5 : ℚ) := by
  have h := (c9_pick_longest_segment
    [((0 : ℚ), (1 : ℚ), (7 : ℤ)), (2, 5, 7), (6, 9, 7)] 7).2 (2, 5)
    (by norm_num [pick_longest_segment, maxByDurFirst])
  exact h.1

/-- C5: for every state series with strictly increasing timestamps (the
normalized-index invariant of the data model) whose restriction to the query
window `[t0, t1]` is non-empty, the segments built by the State Segmenter are
contiguous and exhaustive: the list is non-empty, the first segment starts at
`t0`, the last segment ends at `t1`, each segment's end equals the next
segment's start, and the segments are chronologically ordered (their start
times strictly increase). -/
theorem c5_build_state_segments :
    ∀ (series : List (ℚ × ℤ)) (t0 t1 : ℚ),
      List.Pairwise (fun p q => p.1 < q.1) series →
      restrictWindow series t0 t1 ≠ [] →
      (build_state_segments series t0 t1 ≠ [] ∧
       ((build_state_segments series t0 t1).headD (0, 0, 0)).1 = t0 ∧
       ((build_state_segments series t0 t1).getLastD (0, 0, 0)).2.1 = t1 ∧
       (∀ k, k + 1 < (build_state_segments series t0 t1).length →
         ((build_state_segments series t0 t1).getD k (0, 0, 0)).2.1 =
           ((build_state_segments series t0 t1).getD (k + 1) (0, 0, 0)).1) ∧
       List.Pairwise (fun u v => u.1 < v.1)
         (build_state_segments series t0 t1)) := by
  intro series t0 t1 hsort hne
  obtain ⟨p, rest, hR⟩ := List.exists_cons_of_ne_nil hne
  obtain ⟨tp, vp⟩ := p
  have hsR : List.Pairwise (fun p q => p.1 < q.1) ((tp, vp) :: rest) := by
    rw [← hR]
    exact hsort.filter _
  have hrange : ∀ q ∈ (tp, vp) :: rest, t0 ≤ q.1 ∧ q.1 ≤ t1 := by
    intro q hq
    have hq2 : q ∈ restrictWindow series t0 t1 := by rw [hR]; exact hq
    have := List.of_mem_filter hq2
    simpa using this
  have hle : t0 ≤ tp := (hrange (tp, vp) (by simp)).1
  obtain ⟨v0, setl, hse⟩ := extendEdges_head tp vp rest t0 t1 hle
  have hsesort := extendEdges_sorted tp vp rest t0 t1 hsR hrange
  have hsene : extendEdges ((tp, vp) :: rest) t0 t1 ≠ [] := by
    rw [hse]
    simp
  have hhead_t0 : ((extendEdges ((tp, vp) :: rest) t0 t1).headD (0, 0)).1 = t0 := by
    rw [hse]
    rfl
  have hb : build_state_segments series t0 t1 =
      segsOf (extendEdges ((tp, vp) :: rest) t0 t1) t1 := by
    simp only [build_state_segments]
    rw [hR]
  obtain ⟨a1, a2, a3, a4, a5⟩ :=
    segsOf_spec (extendEdges ((tp, vp) :: rest) t0 t1) t1 hsene hsesort
  rw [hb]
  exact ⟨a1, a2.trans hhead_t0, a3, a4, a5⟩

/-- Witness for C5 on a concrete three-sample series in window `[0, 5]`. -/
theorem c5_build_state_segments_witness :
    build_state_segments [((1 : ℚ), (10 : ℤ)), (2, 10), (3, 20)] 0 5 ≠ [] ∧
    ((build_state_segments [((1 : ℚ), (10 : ℤ)), (2, 10), (3, 20)] 0 5).headD
      (0, 0, 0)).1 = 0 := by
  have h := c5_build_state_segments [((1 : ℚ), (10 : ℤ)), (2, 10), (3, 20)] 0 5
    (by norm_num [List.pairwise_cons])
    (List.ne_nil_of_mem (a := ((1 : ℚ), (10 : ℤ)))
      (List.mem_filter.mpr ⟨by simp, by norm_num⟩))
  exact ⟨h.1, h.2.1⟩

/-- C1: the breakaway detector flags exactly the positions `j ≥ 1` (in range)
whose absolute sample-to-sample difference `|xs[j] - xs[j-1]|` exceeds
`BREAKAWAY_DISP_UM = 1` µm, and returns `some r` exactly when `r` is the
first sample of the first run of `BREAKAWAY_MIN_CONSEC = 3` consecutive
flagged positions (i.e. positions `r, r+1, r+2` are flagged and no earlier
position starts such a run), `none` otherwise; in particular
`[0,0,0,0,2,4,6,0,0] ↦ some 4`, `[0,0,3,0,0] ↦ none`, `[] ↦ none`. -/
theorem c1_find_breakaway_index :
    (∀ (xs : List ℚ) (r : ℕ),
      find_breakaway_index xs = some r ↔
        tripleAt (flagDiffs xs) r = true ∧
          ∀ j < r, tripleAt (flagDiffs xs) j = false) ∧
    (∀ (xs : List ℚ) (j : ℕ),
      (flagDiffs xs).getD j false = true ↔
        (1 ≤ j ∧ j < xs.length ∧
          |xs.getD j 0 - xs.getD (j - 1) 0| > BREAKAWAY_DISP_UM)) ∧
    find_breakaway_index [0, 0, 0, 0, 2, 4, 6, 0, 0] = some 4 ∧
    find_breakaway_index [0, 0, 3, 0, 0] = none ∧
    find_breakaway_index [] = none := by
  refine ⟨find_breakaway_char, flagDiffs_getD, ?_, ?_, rfl⟩
  · norm_num [find_breakaway_index, flagDiffs, baScan, BREAKAWAY_MIN_CONSEC,
      BREAKAWAY_DISP_UM]
  · norm_num [find_breakaway_index, flagDiffs, baScan, BREAKAWAY_MIN_CONSEC,
      BREAKAWAY_DISP_UM]

/-- C10: the breakaway detector never reports the first sample (a returned
index is at least 1, since the first sample-to-sample difference is undefined
and never flagged), and every series with fewer than 4 samples yields
`none`. -/
theorem c10_breakaway_bounds :
    ∀ (xs : List ℚ) (r : ℕ),
      (find_breakaway_index xs = some r → 1 ≤ r) ∧
      (xs.length < 4 → find_breakaway_index xs = none) := by
  intro xs r
  constructor
  · intro h
    obtain ⟨ht, _⟩ := (find_breakaway_char xs r).mp h
    simp only [tripleAt, Bool.and_eq_true] at ht
    have := (flagDiffs_getD xs r).mp ht.1.1
    omega
  · intro hlen
    cases hfb : find_breakaway_index xs with
    | none => rfl
    | some r2 =>
      exfalso
      obtain ⟨ht, _⟩ := (find_breakaway_char xs r2).mp hfb
      simp only [tripleAt, Bool.and_eq_true] at ht
      have ha := (flagDiffs_getD xs r2).mp ht.1.1
      have hb := (flagDiffs_getD xs (r2 + 2)).mp ht.2
      omega

/-- Witness for C10: the theorem applied at `[0,2,4,6]` (where the detector
returns index 1) and at the three-sample series `[0,0,3]`. -/
theorem c10_breakaway_bounds_witness :
    1 ≤ 1 ∧ find_breakaway_index [0, 0, 3] = none := by
  constructor
  · exact (c10_breakaway_bounds [0, 2, 4, 6] 1).1
      (by norm_num [find_breakaway_index, flagDiffs, baScan, BREAKAWAY_MIN_CONSEC,
        BREAKAWAY_DISP_UM])
  · exact (c10_breakaway_bounds [0, 0, 3] 0).2 (by norm_num)


end TN082
